import Mathlib

/-
Verification of the unitarity-resolution protocol (cirq/protocols/has_unitary.py)
and the Pauli-string sample collector (cirq/work/pauli_string_collector.py),
via a shallow embedding of both modules.
-/

/- ===================================================================
   Part 1: the capability-resolution protocol of has_unitary.py.

   A value is embedded by the observable behaviour of its four optional
   capabilities, mirroring the duck-typed attribute probing of the source:
   - the zero-argument _has_unitary_ query: absent or NotImplemented is
     collapsed to `none` (both yield the same inconclusive outcome in
     `_strat_has_unitary_from_has_unitary`), a returned bool is `some b`;
   - the decomposition: `decomposition` holds the operations component of
     `_try_decompose_into_operations_and_qubits`, i.e. `none` when the value
     has no decomposition (method absent, NotImplemented or None) and
     `some ops` when a sequence of sub-operations is produced;
   - the _apply_unitary_ method: `none` when absent, otherwise the function
     from the probe arguments to its result (NotImplemented, None, or a
     produced buffer);
   - the _unitary_ method: `none` when absent, otherwise its returned value
     (NotImplemented sentinel, None, or a dense matrix).
   The isinstance(Gate)/isinstance(Operation) dispatch of the probe strategy
   is embedded in `ValKind`.
   ================================================================== -/

/-- Result of a present _unitary_ method: the NotImplemented sentinel, an
explicit None, or a dense numeric matrix. -/
inductive UnitaryMethodResult where
  | notImplementedSentinel
  | noneResult
  | matrixResult
deriving DecidableEq

/-- Result of a present _apply_unitary_ method on given arguments: the
NotImplemented sentinel, an explicit None, or a produced buffer. -/
inductive ApplyMethodResult where
  | notImplementedSentinel
  | noneResult
  | bufferResult
deriving DecidableEq

/-- Arguments handed to _apply_unitary_ by the probe strategy: the shape of
the one-hot probe state ((2,)*n) and the axis range (range(n)). The concrete
numeric buffers are determined by the shape, so the shape stands for them. -/
structure ApplyUnitaryArgs where
  targetShape : List Nat
  axes : List Nat
deriving DecidableEq

/-- The isinstance dispatch used by the source: a Gate (no qubit placement,
only an arity), an Operation placed on concrete qubits, or any other value.
Qubits are embedded as line identifiers (naturals), as produced by
LineQubit.range. -/
inductive ValKind where
  | gate (num_qubits : Nat)
  | operationOn (qubits : List Nat)
  | plain
deriving DecidableEq

/-- A value as seen by the has_unitary protocol: its four optional
capabilities and its isinstance kind. Sub-operations of a decomposition are
again such values. -/
inductive Val : Type where
  | mk : Option Bool → Option (List Val) →
         Option (ApplyUnitaryArgs → ApplyMethodResult) →
         Option UnitaryMethodResult → ValKind → Val

def Val.hasUnitaryMethod : Val → Option Bool
  | .mk f _ _ _ _ => f

def Val.decomposition : Val → Option (List Val)
  | .mk _ d _ _ _ => d

def Val.applyUnitaryMethod : Val → Option (ApplyUnitaryArgs → ApplyMethodResult)
  | .mk _ _ a _ _ => a

def Val.unitaryMethod : Val → Option UnitaryMethodResult
  | .mk _ _ _ u _ => u

def Val.kind : Val → ValKind
  | .mk _ _ _ _ k => k

/-- Strategy 1, _strat_has_unitary_from_has_unitary: use the value's own
_has_unitary_ query; absent method and NotImplemented are both inconclusive
(`none`), a returned bool is conclusive. -/
def strat_has_unitary_from_has_unitary (v : Val) : Option Bool :=
  v.hasUnitaryMethod

/-- LineQubit.range(n): sequential new line identifiers 0, 1, ..., n-1. -/
def lineQubitRange (n : Nat) : List Nat := List.range n

/-- Gate.on: place a gate-shaped value on concrete qubits, turning it into an
operation (val.on(*qubits) in the source); the four capabilities of the value
are untouched. -/
def Val.on (v : Val) (qubits : List Nat) : Val :=
  match v with
  | .mk f d a u _ => .mk f d a u (ValKind.operationOn qubits)

/-- The probe arguments built by _strat_has_unitary_from_apply_unitary for an
operation on n qubits: a one-hot state of shape (2,)*n, a buffer of the same
shape, and axes range(n). -/
def probeArgs (n : Nat) : ApplyUnitaryArgs :=
  { targetShape := List.replicate n 2, axes := List.range n }

/-- Strategy 3, _strat_has_unitary_from_apply_unitary: if the method is
absent, inconclusive; a gate is first placed on LineQubit.range(num_qubits);
a value that is then not an operation is inconclusive; otherwise the method
is probed on the canonical basis state: NotImplemented is inconclusive, a
None result is conclusively non-unitary, a produced buffer is conclusively
unitary. -/
def strat_has_unitary_from_apply_unitary (v : Val) : Option Bool :=
  match v.applyUnitaryMethod with
  | none => none
  | some method =>
    let v2 := match v.kind with
      | ValKind.gate k => v.on (lineQubitRange k)
      | _ => v
    match v2.kind with
    | ValKind.operationOn qubits =>
      match method (probeArgs qubits.length) with
      | ApplyMethodResult.notImplementedSentinel => none
      | ApplyMethodResult.noneResult => some false
      | ApplyMethodResult.bufferResult => some true
    | _ => none

/-- Strategy 4, _strat_has_unitary_from_unitary: if the _unitary_ method is
absent, inconclusive; otherwise conclusive, with answer
(result is not NotImplemented and result is not None). -/
def strat_has_unitary_from_unitary (v : Val) : Option Bool :=
  match v.unitaryMethod with
  | none => none
  | some r =>
    some (match r with
          | UnitaryMethodResult.matrixResult => true
          | _ => false)

mutual

/-- The public resolver has_unitary: strategies are tried in the fixed order
flag, decomposition, probe application, matrix materialization; the first
conclusive answer is returned and all-inconclusive defaults to False. The
decomposition strategy is inlined here because it recurses through this very
resolver (`has_unitaries = [has_unitary(op) for op in operations]` in the
source); its separate statement is `strat_has_unitary_from_decompose`
below. -/
def has_unitary : Val → Bool
  | Val.mk f d a u k =>
    match f with
    | some b => b
    | none =>
      match d with
      | some ops => has_unitary_list ops
      | none =>
        match strat_has_unitary_from_apply_unitary (Val.mk f d a u k) with
        | some b => b
        | none =>
          match strat_has_unitary_from_unitary (Val.mk f d a u k) with
          | some b => b
          | none => false

/-- Conjunction of has_unitary over a decomposition's sub-operations,
mirroring `all([has_unitary(op) for op in operations])`. -/
def has_unitary_list : List Val → Bool
  | [] => true
  | op :: ops => has_unitary op && has_unitary_list ops

end

/-- Strategy 2, _strat_has_unitary_from_decompose: inconclusive when no
decomposition is available; otherwise the sub-operations are resolved with
the top-level has_unitary and the answers are conjoined. The source's guard
`any(v is None or v is NotImplemented for v in has_unitaries)` is vacuous,
because has_unitary returns a plain bool for every input, so the strategy is
conclusive whenever a decomposition exists. -/
def strat_has_unitary_from_decompose (v : Val) : Option Bool :=
  match v.decomposition with
  | none => none
  | some ops =>
    let results := ops.map has_unitary
    some (results.all (fun x => x))

/-- The priority chain of has_unitary: the first conclusive strategy answer,
with all-inconclusive defaulting to False. -/
def resolveStrategies : List (Option Bool) → Bool
  | [] => false
  | none :: rest => resolveStrategies rest
  | some b :: _ => b

theorem has_unitary_list_eq_all (l : List Val) :
    has_unitary_list l = l.all has_unitary := by
  induction l with
  | nil => rfl
  | cons op ops ih => simp [has_unitary_list, List.all_cons, ih]

theorem map_all_id_eq_all (l : List Val) :
    (l.map has_unitary).all (fun x => x) = l.all has_unitary := by
  induction l with
  | nil => rfl
  | cons op ops ih => simp [List.all_cons, ih]

theorem has_unitary_eq_resolveStrategies (v : Val) :
    has_unitary v = resolveStrategies
      [strat_has_unitary_from_has_unitary v,
       strat_has_unitary_from_decompose v,
       strat_has_unitary_from_apply_unitary v,
       strat_has_unitary_from_unitary v] := by
  cases v with
  | mk f d a u k =>
    cases f with
    | some b =>
      simp [has_unitary, strat_has_unitary_from_has_unitary,
        Val.hasUnitaryMethod, resolveStrategies]
    | none =>
      cases d with
      | some ops =>
        simp [has_unitary, strat_has_unitary_from_has_unitary,
          strat_has_unitary_from_decompose, Val.hasUnitaryMethod,
          Val.decomposition, resolveStrategies, has_unitary_list_eq_all,
          map_all_id_eq_all]
      | none =>
        cases h3 : strat_has_unitary_from_apply_unitary (Val.mk none none a u k) with
        | some b =>
          simp [has_unitary, strat_has_unitary_from_has_unitary,
            strat_has_unitary_from_decompose, Val.hasUnitaryMethod,
            Val.decomposition, resolveStrategies, h3]
        | none =>
          cases h4 : strat_has_unitary_from_unitary (Val.mk none none a u k) with
          | some b =>
            simp [has_unitary, strat_has_unitary_from_has_unitary,
              strat_has_unitary_from_decompose, Val.hasUnitaryMethod,
              Val.decomposition, resolveStrategies, h3, h4]
          | none =>
            simp [has_unitary, strat_has_unitary_from_has_unitary,
              strat_has_unitary_from_decompose, Val.hasUnitaryMethod,
              Val.decomposition, resolveStrategies, h3, h4]

/-- A value exposing none of the four capabilities. -/
def noCapVal : Val := Val.mk none none none none ValKind.plain

/-- A value whose only capability is decomposing into the single
capability-free sub-operation noCapVal. -/
def valDecOne : Val := Val.mk none (some [noCapVal]) none none ValKind.plain

/-- Strategy 4 under the spec's treat-NotImplemented-as-Unknown semantics:
identical to strat_has_unitary_from_unitary except that a _unitary_ method
returning the NotImplemented sentinel is inconclusive instead of
conclusively False. -/
def strat_unitary_sentinel_as_unknown (v : Val) : Option Bool :=
  match v.unitaryMethod with
  | none => none
  | some UnitaryMethodResult.notImplementedSentinel => none
  | some UnitaryMethodResult.noneResult => some false
  | some UnitaryMethodResult.matrixResult => some true

mutual

/-- The resolver under treat-NotImplemented-as-Unknown semantics for the
matrix strategy: same chain and same False default, with the last strategy
replaced by strat_unitary_sentinel_as_unknown. -/
def has_unitary_niu : Val → Bool
  | Val.mk f d a u k =>
    match f with
    | some b => b
    | none =>
      match d with
      | some ops => has_unitary_niu_list ops
      | none =>
        match strat_has_unitary_from_apply_unitary (Val.mk f d a u k) with
        | some b => b
        | none =>
          match strat_unitary_sentinel_as_unknown (Val.mk f d a u k) with
          | some b => b
          | none => false

def has_unitary_niu_list : List Val → Bool
  | [] => true
  | op :: ops => has_unitary_niu op && has_unitary_niu_list ops

end

/-- C2: has_unitary runs the four strategies in the fixed priority order
(direct flag, decomposition, probe application, matrix materialization),
returns the first conclusive (non-Unknown) result, and returns False when
all four strategies are inconclusive; in particular a value exposing none of
the four capabilities resolves to False. -/
theorem has_unitary_runs_strategy_chain (v : Val) :
    has_unitary v = resolveStrategies
      [strat_has_unitary_from_has_unitary v,
       strat_has_unitary_from_decompose v,
       strat_has_unitary_from_apply_unitary v,
       strat_has_unitary_from_unitary v] ∧
    (strat_has_unitary_from_has_unitary v = none →
     strat_has_unitary_from_decompose v = none →
     strat_has_unitary_from_apply_unitary v = none →
     strat_has_unitary_from_unitary v = none →
     has_unitary v = false) := by
  refine ⟨has_unitary_eq_resolveStrategies v, fun h1 h2 h3 h4 => ?_⟩
  rw [has_unitary_eq_resolveStrategies v, h1, h2, h3, h4]
  rfl

theorem has_unitary_runs_strategy_chain_witness :
    has_unitary noCapVal = false :=
  (has_unitary_runs_strategy_chain noCapVal).2 rfl rfl rfl rfl

/-- C1 counterexample: noCapVal has all four strategies inconclusive (so its
unitarity is Unknown at the strategy level), yet the decomposition strategy
on a value decomposing into exactly [noCapVal] answers a conclusive False
rather than the Unknown the claim requires: the recursion passes through the
top-level resolver, whose closed-world default coerces Unknown to False. -/
theorem decompose_strategy_unknown_counterexample :
    (strat_has_unitary_from_has_unitary noCapVal = none ∧
     strat_has_unitary_from_decompose noCapVal = none ∧
     strat_has_unitary_from_apply_unitary noCapVal = none ∧
     strat_has_unitary_from_unitary noCapVal = none) ∧
    strat_has_unitary_from_decompose valDecOne = some false :=
  ⟨⟨rfl, rfl, rfl, rfl⟩, rfl⟩

/-- C1 (amended): whenever a decomposition is available, the decomposition
strategy is conclusive and answers the conjunction of the sub-operations'
top-level has_unitary answers; each sub-operation's Unknown has already been
coerced to False by the resolver's closed-world default before the
conjunction is taken, so a sub-operation with no capabilities contributes
False rather than propagating Unknown. -/
theorem decompose_strategy_conjoins_resolver_answers
    (v : Val) (ops : List Val) (h : v.decomposition = some ops) :
    strat_has_unitary_from_decompose v = some (ops.all has_unitary) := by
  simp [strat_has_unitary_from_decompose, h, map_all_id_eq_all]

theorem decompose_strategy_conjoins_resolver_answers_witness :
    strat_has_unitary_from_decompose valDecOne =
      some ([noCapVal].all has_unitary) :=
  decompose_strategy_conjoins_resolver_answers valDecOne [noCapVal] rfl

/-- C3: the probe strategy answers Unknown when the _apply_unitary_
capability is absent; for an operation it probes the method on the canonical
basis state over its qubits, answering True for a produced buffer, False for
an explicit None, Unknown for NotImplemented; and a gate-shaped value is
first placed on sequential new line identifiers (LineQubit.range) before
probing. -/
theorem apply_unitary_strategy_spec (v : Val) :
    (v.applyUnitaryMethod = none →
      strat_has_unitary_from_apply_unitary v = none) ∧
    (∀ m qs, v.applyUnitaryMethod = some m →
      v.kind = ValKind.operationOn qs →
      strat_has_unitary_from_apply_unitary v =
        (match m (probeArgs qs.length) with
         | ApplyMethodResult.notImplementedSentinel => none
         | ApplyMethodResult.noneResult => some false
         | ApplyMethodResult.bufferResult => some true)) ∧
    (∀ n, v.kind = ValKind.gate n →
      strat_has_unitary_from_apply_unitary v =
        strat_has_unitary_from_apply_unitary (v.on (lineQubitRange n))) := by
  cases v with
  | mk f d a u k =>
    refine ⟨fun ha => ?_, fun m qs ha hk => ?_, fun n hk => ?_⟩
    · simp [Val.applyUnitaryMethod] at ha
      simp [strat_has_unitary_from_apply_unitary, Val.applyUnitaryMethod, ha]
    · simp [Val.applyUnitaryMethod] at ha
      simp [Val.kind] at hk
      subst ha hk
      simp [strat_has_unitary_from_apply_unitary, Val.applyUnitaryMethod,
        Val.kind, Val.on]
    · simp [Val.kind] at hk
      subst hk
      cases a with
      | none =>
        simp [strat_has_unitary_from_apply_unitary, Val.applyUnitaryMethod,
          Val.on]
      | some m =>
        simp [strat_has_unitary_from_apply_unitary, Val.applyUnitaryMethod,
          Val.kind, Val.on, lineQubitRange]

/-- A value whose only capability is an _apply_unitary_ method that always
produces a buffer, already placed as an operation on qubit 0. -/
def probeOkVal : Val :=
  Val.mk none none (some (fun _ => ApplyMethodResult.bufferResult)) none
    (ValKind.operationOn [0])

theorem apply_unitary_strategy_spec_witness :
    strat_has_unitary_from_apply_unitary probeOkVal = some true :=
  ((apply_unitary_strategy_spec probeOkVal).2.1
    (fun _ => ApplyMethodResult.bufferResult) [0] rfl rfl).trans rfl

/-- C10: for a value whose first three strategies are inconclusive and whose
_unitary_ method returns the NotImplemented sentinel, the matrix strategy
answers a conclusive False (where treat-NotImplemented-as-Unknown semantics
would answer Unknown); nevertheless the top-level result is False under both
semantics, because the matrix strategy is last in the chain and the
all-Unknown default is also False. -/
theorem unitary_strategy_sentinel_refinement (v : Val)
    (h1 : strat_has_unitary_from_has_unitary v = none)
    (h2 : strat_has_unitary_from_decompose v = none)
    (h3 : strat_has_unitary_from_apply_unitary v = none)
    (h4 : v.unitaryMethod = some UnitaryMethodResult.notImplementedSentinel) :
    strat_has_unitary_from_unitary v = some false ∧
    strat_unitary_sentinel_as_unknown v = none ∧
    has_unitary v = false ∧
    has_unitary_niu v = false := by
  cases v with
  | mk f d a u k =>
    simp [strat_has_unitary_from_has_unitary, Val.hasUnitaryMethod] at h1
    simp [Val.unitaryMethod] at h4
    subst h1 h4
    have hd : d = none := by
      cases d with
      | none => rfl
      | some ops => simp [strat_has_unitary_from_decompose, Val.decomposition] at h2
    subst hd
    refine ⟨rfl, rfl, ?_, ?_⟩
    · simp [has_unitary, h3, strat_has_unitary_from_unitary, Val.unitaryMethod]
    · simp [has_unitary_niu, h3, strat_unitary_sentinel_as_unknown,
        Val.unitaryMethod]

/-- A value whose only capability is a _unitary_ method returning the
NotImplemented sentinel. -/
def sentinelVal : Val :=
  Val.mk none none none (some UnitaryMethodResult.notImplementedSentinel)
    ValKind.plain

theorem unitary_strategy_sentinel_refinement_witness :
    strat_has_unitary_from_unitary sentinelVal = some false ∧
    strat_unitary_sentinel_as_unknown sentinelVal = none ∧
    has_unitary sentinelVal = false ∧
    has_unitary_niu sentinelVal = false :=
  unitary_strategy_sentinel_refinement sentinelVal rfl rfl rfl rfl

/- ===================================================================
   Part 2: the Pauli-string sample collector
   (cirq/work/pauli_string_collector.py).

   Python integers are embedded as Int (floor division fdiv mirrors //,
   list indexing gets Python's negative-index wrap), coefficients as
   rationals, and the defaultdict accumulators as association lists whose
   getitem inserts the default on a missing key, exactly like
   collections.defaultdict.
   ================================================================== -/

/-- An elementary single-qubit Pauli factor. -/
inductive Pauli where
  | X
  | Y
  | Z
deriving DecidableEq

/-- A product observable: its qubit-to-Pauli mapping (qubits are line
identifiers) and its intrinsic scalar coefficient. Python truthiness of a
PauliString is the nonemptiness of the mapping. -/
structure PauliString where
  qubit_pauli_map : List (Nat × Pauli)
  coefficient : Rat
deriving DecidableEq

/-- The mapping keys, as returned by pauli_string.keys(). -/
def PauliString.keys (p : PauliString) : List Nat :=
  p.qubit_pauli_map.map Prod.fst

/-- The fixed measurement label used by the derived circuit. -/
inductive MeasKey where
  | out
deriving DecidableEq

/-- A moment of the derived circuit: a moment of the caller's base circuit,
the basis-rotation moment produced by pauli_string.to_z_basis_ops(), or the
terminal measurement of the given qubits under the given label. -/
inductive Moment where
  | base (tag : Nat)
  | zBasisOps (p : PauliString)
  | measurement (qubits : List Nat) (key : MeasKey)
deriving DecidableEq

abbrev Circuit := List Moment

/-- The exceptions the collector code can raise: the failed assert in
_circuit_plus_pauli_string_measurements, Python's ZeroDivisionError from
total // 0, and IndexError from list indexing. -/
inductive CollectorError where
  | assertionFailed
  | zeroDivisionFailed
  | indexOutOfRange
deriving DecidableEq

/-- Insertion into a sorted list of line identifiers. -/
def insertSorted (x : Nat) : List Nat → List Nat
  | [] => [x]
  | y :: ys => if x ≤ y then x :: y :: ys else y :: insertSorted x ys

/-- Python sorted() on line identifiers. -/
def sortedKeys : List Nat → List Nat
  | [] => []
  | x :: xs => insertSorted x (sortedKeys xs)

/-- _circuit_plus_pauli_string_measurements: asserts the pauli string is
truthy (nonempty mapping), then appends the basis-rotation moment and a
measurement of the sorted keys under the fixed label to a copy of the
circuit. The local n = len(pauli_string.keys()) of the source is unused. -/
def circuit_plus_pauli_string_measurements (circuit : Circuit)
    (pauli_string : PauliString) : Except CollectorError Circuit :=
  if pauli_string.qubit_pauli_map = [] then
    Except.error CollectorError.assertionFailed
  else
    Except.ok (circuit ++
      [Moment.zBasisOps pauli_string,
       Moment.measurement (sortedKeys pauli_string.keys) MeasKey.out])

/-- A collections.defaultdict(lambda: 0) with keys K: an association list in
insertion order. Reading a missing key inserts the default 0, exactly like
Python's defaultdict getitem. -/
structure IntCounter (K : Type) where
  entries : List (K × Int)
deriving DecidableEq

/-- Plain dict lookup on the underlying entries. -/
def assocFind {K : Type} [DecidableEq K] : List (K × Int) → K → Option Int
  | [], _ => none
  | e :: rest, key => if e.1 = key then some e.2 else assocFind rest key

/-- Plain dict item assignment: overwrite in place, or append a new entry. -/
def assocSet {K : Type} [DecidableEq K] :
    List (K × Int) → K → Int → List (K × Int)
  | [], key, v => [(key, v)]
  | e :: rest, key, v =>
    if e.1 = key then (key, v) :: rest else e :: assocSet rest key v

/-- defaultdict getitem: return the stored value, or insert and return the
default 0 when the key is missing. -/
def IntCounter.getItem {K : Type} [DecidableEq K] (d : IntCounter K) (k : K) :
    Int × IntCounter K :=
  match assocFind d.entries k with
  | some v => (v, d)
  | none => (0, { entries := d.entries ++ [(k, 0)] })

/-- The compound assignment d[k] += x: defaultdict getitem followed by item
assignment. -/
def IntCounter.addItem {K : Type} [DecidableEq K] (d : IntCounter K) (k : K)
    (x : Int) : IntCounter K :=
  let r := d.getItem k
  { entries := assocSet r.2.entries k (r.1 + x) }

/-- The abstract mapping view of the accumulator: the count stored for a
key, with absent keys reading as 0. -/
def IntCounter.valueOf {K : Type} [DecidableEq K] (d : IntCounter K) (k : K) :
    Int :=
  match assocFind d.entries k with
  | some v => v
  | none => 0

/-- The mutable state of a PauliStringSampleCollector: the base circuit, the
per-job cap, the merged term list, the two parity accumulators, the per-term
target and the monotone request counter. -/
structure CollectorState where
  circuit : Circuit
  samples_per_job : Int
  terms : List (PauliString × Rat)
  zeros : IntCounter PauliString
  ones : IntCounter PauliString
  samples_per_term : Int
  total_samples_requested : Int
deriving DecidableEq

/-- PauliStringSampleCollector.__init__: stores the circuit, the per-job cap
(default 1000 in the source), merges each term's dictionary weight with the
pauli string's intrinsic coefficient while rebuilding the observable with
coefficient 1, and zero-initializes the accumulators and the request
counter. The body contains no validation, so construction always succeeds;
the Except type records that it cannot raise. -/
def pauliStringSampleCollector_init (circuit : Circuit)
    (samples_per_term : Int) (terms : List (PauliString × Rat))
    (max_samples_per_job : Int) : Except CollectorError CollectorState :=
  Except.ok
    { circuit := circuit
      samples_per_job := max_samples_per_job
      terms := terms.map (fun t =>
        ({ qubit_pauli_map := t.1.qubit_pauli_map, coefficient := 1 },
         t.2 * t.1.coefficient))
      zeros := { entries := [] }
      ones := { entries := [] }
      samples_per_term := samples_per_term
      total_samples_requested := 0 }

/-- Python list indexing l[i]: a negative index counts from the end, and an
index outside the adjusted range raises IndexError. -/
def pyListGet {α : Type} (l : List α) (i : Int) : Except CollectorError α :=
  let j := if i < 0 then i + (l.length : Int) else i
  if j < 0 then Except.error CollectorError.indexOutOfRange
  else
    match l.get? j.toNat with
    | some x => Except.ok x
    | none => Except.error CollectorError.indexOutOfRange

/-- A unit of sampling work, collector.CircuitSampleJob: the derived
measurement circuit, the repetition count, and the pauli string used as the
routing id. -/
structure CircuitSampleJob where
  circuit : Circuit
  repetitions : Int
  id : PauliString
deriving DecidableEq

/-- PauliStringSampleCollector.next_job. The current term index is
i = total_samples_requested // samples_per_term (Python floor division,
raising ZeroDivisionError when samples_per_term is 0); when i is past the
term list the call returns None without touching the state; otherwise the
batch is min(samples_per_term * (i+1) - total, samples_per_job), the request
counter advances by it, and the job carries the derived measurement circuit
and the term's pauli string as id. -/
def next_job (s : CollectorState) :
    Except CollectorError (Option CircuitSampleJob × CollectorState) :=
  if s.samples_per_term = 0 then Except.error CollectorError.zeroDivisionFailed
  else
    let i := Int.fdiv s.total_samples_requested s.samples_per_term
    if (s.terms.length : Int) ≤ i then Except.ok (none, s)
    else do
      let term ← pyListGet s.terms i
      let remaining := s.samples_per_term * (i + 1) - s.total_samples_requested
      let amount_to_request := min remaining s.samples_per_job
      let s2 : CollectorState :=
        { s with total_samples_requested :=
            s.total_samples_requested + amount_to_request }
      let c ← circuit_plus_pauli_string_measurements s.circuit term.1
      Except.ok
        (some { circuit := c, repetitions := amount_to_request, id := term.1 },
         s2)

/-- Modelled from the spec: the external TrialResult exposes only its
histogram accessor; what on_job_result consumes is the bit-array rows
recorded under the fixed measurement label, so a result is embedded as that
list of rows. -/
abbrev TrialResult := List (List Nat)

/-- The fold function passed to result.histogram: population count modulo 2
of one measurement row. -/
def foldParity (bits : List Nat) : Nat := bits.sum % 2

/-- Modelled from the spec: result.histogram(key, fold_func) returns the
mapping from fold output to count; the collector reads the entries at fold
outputs 0 and 1, absent entries counting 0. -/
def histogramCount (result : TrialResult) (parity : Nat) : Int :=
  ((result.filter (fun row => foldParity row == parity)).length : Int)

/-- PauliStringSampleCollector.on_job_result: add the even-parity outcome
count to zeros[job.id] and the odd-parity outcome count to ones[job.id]. -/
def on_job_result (s : CollectorState) (job : CircuitSampleJob)
    (result : TrialResult) : CollectorState :=
  { s with
      zeros := s.zeros.addItem job.id (histogramCount result 0)
      ones := s.ones.addItem job.id (histogramCount result 1) }

/-- One loop step of estimated_energy: defaultdict reads of both
accumulators at the term's pauli string (inserting 0 on missing keys, as the
Python getitem does), then the guarded contribution
coef * (a - b) / (a + b), skipped when a + b is zero. -/
def energyStep (acc : Rat × IntCounter PauliString × IntCounter PauliString)
    (term : PauliString × Rat) :
    Rat × IntCounter PauliString × IntCounter PauliString :=
  let z := acc.2.1.getItem term.1
  let o := acc.2.2.getItem term.1
  let a := z.1
  let b := o.1
  (if a + b ≠ 0 then
     acc.1 + term.2 * ((a - b : Int) : Rat) / ((a + b : Int) : Rat)
   else acc.1, z.2, o.2)

/-- PauliStringSampleCollector.estimated_energy: fold the guarded
contributions over the term list, threading the accumulators because the
defaultdict reads may insert zero entries; the summary value and the
resulting state are both returned. -/
def estimated_energy (s : CollectorState) : Rat × CollectorState :=
  let r := s.terms.foldl energyStep (0, s.zeros, s.ones)
  (r.1, { s with zeros := r.2.1, ones := r.2.2 })

/-- The driving loop of the spec: call next_job up to fuel times, recording
each emitted job's term index (total // samples_per_term at emission time)
and repetition count, stopping at the first None or error. -/
def runCollector : Nat → CollectorState → List (Int × Int) × CollectorState
  | 0, s => ([], s)
  | Nat.succ fuel, s =>
    match next_job s with
    | Except.error _ => ([], s)
    | Except.ok (none, s2) => ([], s2)
    | Except.ok (some j, s2) =>
      let r := runCollector fuel s2
      ((Int.fdiv s.total_samples_requested s.samples_per_term,
        j.repetitions) :: r.1, r.2)

/-- Total repetitions requested for term index i within a job trace. -/
def repsForTerm (i : Int) (trace : List (Int × Int)) : Int :=
  ((trace.filter (fun e => e.1 == i)).map Prod.snd).sum

/- Accumulator lemmas: the defaultdict operations seen through the abstract
mapping view. -/

theorem getItem_fst {K : Type} [DecidableEq K] (d : IntCounter K) (k : K) :
    (d.getItem k).1 = d.valueOf k := by
  cases h : assocFind d.entries k <;>
    simp [IntCounter.getItem, IntCounter.valueOf, h]

theorem assocFind_append_default {K : Type} [DecidableEq K]
    (l : List (K × Int)) (k k' : K) :
    (match assocFind (l ++ [(k, 0)]) k' with
     | some v => v
     | none => (0 : Int)) =
    (match assocFind l k' with
     | some v => v
     | none => (0 : Int)) := by
  induction l with
  | nil =>
    by_cases h : k = k' <;> simp [assocFind, h]
  | cons e rest ih =>
    by_cases h : e.1 = k' <;> simp [assocFind, h, ih]

theorem getItem_snd_valueOf {K : Type} [DecidableEq K] (d : IntCounter K)
    (k k' : K) : (d.getItem k).2.valueOf k' = d.valueOf k' := by
  cases h : assocFind d.entries k with
  | some v => simp [IntCounter.getItem, h]
  | none =>
    simp [IntCounter.getItem, h, IntCounter.valueOf,
      assocFind_append_default d.entries k k']

theorem assocFind_assocSet {K : Type} [DecidableEq K]
    (l : List (K × Int)) (k k' : K) (v : Int) :
    assocFind (assocSet l k v) k' =
      if k' = k then some v else assocFind l k' := by
  induction l with
  | nil =>
    by_cases h : k' = k
    · subst h; simp [assocSet, assocFind]
    · simp [assocSet, assocFind, h, Ne.symm h]
  | cons e rest ih =>
    by_cases he : e.1 = k
    · by_cases h : k' = k
      · subst h; simp [assocSet, assocFind, he]
      · simp [assocSet, assocFind, he, h, Ne.symm h]
    · by_cases h : k' = k
      · subst h
        simp [assocSet, assocFind, he, ih, Ne.symm he]
      · simp [assocSet, assocFind, he, ih, h]

theorem addItem_valueOf {K : Type} [DecidableEq K] (d : IntCounter K)
    (k k' : K) (x : Int) :
    (d.addItem k x).valueOf k' =
      if k' = k then d.valueOf k' + x else d.valueOf k' := by
  by_cases h : k' = k
  · subst h
    have h1 : (d.addItem k' x).valueOf k' = (d.getItem k').1 + x := by
      simp [IntCounter.addItem, IntCounter.valueOf, assocFind_assocSet]
    rw [h1, getItem_fst]
    simp
  · have h1 : (d.addItem k x).valueOf k' = (d.getItem k).2.valueOf k' := by
      simp [IntCounter.addItem, IntCounter.valueOf, assocFind_assocSet, h]
    rw [h1, getItem_snd_valueOf]
    simp [h]

theorem map_eq_of_pointwise {α β : Type} (l : List α) (f g : α → β)
    (h : ∀ x, f x = g x) : l.map f = l.map g := by
  rw [funext h]

/-- The guarded contribution of one term, read through the abstract mapping
view of the two accumulators. -/
def termContribution (z o : IntCounter PauliString) (t : PauliString × Rat) :
    Rat :=
  if z.valueOf t.1 + o.valueOf t.1 = 0 then 0
  else t.2 * ((z.valueOf t.1 - o.valueOf t.1 : Int) : Rat) /
    ((z.valueOf t.1 + o.valueOf t.1 : Int) : Rat)

theorem energy_foldl (terms : List (PauliString × Rat)) :
    ∀ (e : Rat) (z o : IntCounter PauliString),
    (terms.foldl energyStep (e, z, o)).1 =
      e + (terms.map (termContribution z o)).sum ∧
    (∀ k, (terms.foldl energyStep (e, z, o)).2.1.valueOf k = z.valueOf k) ∧
    (∀ k, (terms.foldl energyStep (e, z, o)).2.2.valueOf k = o.valueOf k) := by
  induction terms with
  | nil => intro e z o; simp
  | cons t ts ih =>
    intro e z o
    have hstep : energyStep (e, z, o) t =
        (e + termContribution z o t, (z.getItem t.1).2, (o.getItem t.1).2) := by
      simp only [energyStep, termContribution, getItem_fst z t.1,
        getItem_fst o t.1]
      by_cases hg : z.valueOf t.1 + o.valueOf t.1 = 0
      · simp [hg]
      · simp [hg]
    have ihh := ih (e + termContribution z o t) (z.getItem t.1).2
      (o.getItem t.1).2
    have hz : ∀ k, (z.getItem t.1).2.valueOf k = z.valueOf k :=
      getItem_snd_valueOf z t.1
    have ho : ∀ k, (o.getItem t.1).2.valueOf k = o.valueOf k :=
      getItem_snd_valueOf o t.1
    have hmap : ts.map (termContribution (z.getItem t.1).2 (o.getItem t.1).2) =
        ts.map (termContribution z o) := by
      apply map_eq_of_pointwise
      intro x
      simp [termContribution, hz, ho]
    refine ⟨?_, fun k => ?_, fun k => ?_⟩
    · rw [List.foldl_cons, hstep]
      rw [ihh.1, hmap]
      simp [List.sum_cons]
      ring
    · rw [List.foldl_cons, hstep]
      rw [ihh.2.1 k, hz k]
    · rw [List.foldl_cons, hstep]
      rw [ihh.2.2 k, ho k]

/-- The value returned by estimated_energy is the sum over the term list of
the guarded contributions read through the abstract accumulator view. -/
theorem estimated_energy_eq_sum (s : CollectorState) :
    (estimated_energy s).1 =
      (s.terms.map (termContribution s.zeros s.ones)).sum := by
  have h := (energy_foldl s.terms 0 s.zeros s.ones).1
  simpa [estimated_energy] using h

theorem estimated_energy_state_valueOf (s : CollectorState) :
    (∀ k, (estimated_energy s).2.zeros.valueOf k = s.zeros.valueOf k) ∧
    (∀ k, (estimated_energy s).2.ones.valueOf k = s.ones.valueOf k) := by
  have h := energy_foldl s.terms 0 s.zeros s.ones
  exact ⟨fun k => h.2.1 k, fun k => h.2.2 k⟩

/- Concrete collectors used by the example parts of the claims. -/

/-- The single-qubit Z observable on line 0, with intrinsic coefficient 1. -/
def psZ : PauliString := { qubit_pauli_map := [(0, Pauli.Z)], coefficient := 1 }

/-- The empty product observable (falsy in Python). -/
def psEmpty : PauliString := { qubit_pauli_map := [], coefficient := 1 }

/-- A collector with the single term psZ at merged coefficient 2, as
produced by construction with samples_per_term 40. -/
def sOneTerm : CollectorState :=
  { circuit := []
    samples_per_job := 1000
    terms := [(psZ, 2)]
    zeros := { entries := [] }
    ones := { entries := [] }
    samples_per_term := 40
    total_samples_requested := 0 }

/-- A job for the psZ term. -/
def jobZ : CircuitSampleJob := { circuit := [], repetitions := 40, id := psZ }

/-- Forty measured rows under the fixed label: 30 of even parity and 10 of
odd parity. -/
def resZ : TrialResult := List.replicate 30 [0] ++ List.replicate 10 [1]

/-- C6: estimated_energy returns the sum over all terms of
coefficient * (a - b) / (a + b) with a, b the accumulated even and odd
counts for the term, a term contributing 0 without raising whenever
a + b = 0; for a single term of coefficient 2 with recorded zeros = 30 and
ones = 10 the value is 1, and a collector never driven through any
next_job/on_job_result cycle returns 0. -/
theorem estimated_energy_weighted_sum :
    (∀ s : CollectorState,
      (estimated_energy s).1 =
        (s.terms.map (termContribution s.zeros s.ones)).sum) ∧
    (estimated_energy (on_job_result sOneTerm jobZ resZ)).1 = 1 ∧
    (estimated_energy sOneTerm).1 = 0 := by
  refine ⟨fun s => estimated_energy_eq_sum s, ?_, rfl⟩
  have h : (estimated_energy (on_job_result sOneTerm jobZ resZ)).1 =
      (0 : Rat) + 2 * ((20 : Int) : Rat) / ((40 : Int) : Rat) := rfl
  rw [h]
  norm_num

/-- C8: estimated_energy does not change the observable collector state:
the term list, both accumulator mappings (up to the zero entries the
defaultdict reads insert, which leave the mapping view unchanged), the
request counter, the per-term target, the per-job cap and the circuit are
all preserved, and a repeated call returns the identical value. -/
theorem estimated_energy_frame (s : CollectorState) :
    (estimated_energy s).2.terms = s.terms ∧
    (estimated_energy s).2.total_samples_requested =
      s.total_samples_requested ∧
    (estimated_energy s).2.samples_per_term = s.samples_per_term ∧
    (estimated_energy s).2.samples_per_job = s.samples_per_job ∧
    (estimated_energy s).2.circuit = s.circuit ∧
    (∀ k, (estimated_energy s).2.zeros.valueOf k = s.zeros.valueOf k) ∧
    (∀ k, (estimated_energy s).2.ones.valueOf k = s.ones.valueOf k) ∧
    (estimated_energy (estimated_energy s).2).1 = (estimated_energy s).1 := by
  have hv := estimated_energy_state_valueOf s
  refine ⟨rfl, rfl, rfl, rfl, rfl, hv.1, hv.2, ?_⟩
  rw [estimated_energy_eq_sum, estimated_energy_eq_sum]
  have hterms : (estimated_energy s).2.terms = s.terms := rfl
  rw [hterms]
  congr 1
  apply map_eq_of_pointwise
  intro t
  simp [termContribution, hv.1, hv.2]

/-- C9: delivering the results of two jobs with distinct ids in either
order produces the same accumulator mappings, because each application only
adds the result's even-parity count to zeros at the job id and its
odd-parity count to ones at the job id. -/
theorem on_job_result_commutes (s : CollectorState)
    (j1 j2 : CircuitSampleJob) (r1 r2 : TrialResult) (h : j1.id ≠ j2.id) :
    (∀ k, (on_job_result (on_job_result s j1 r1) j2 r2).zeros.valueOf k =
          (on_job_result (on_job_result s j2 r2) j1 r1).zeros.valueOf k) ∧
    (∀ k, (on_job_result (on_job_result s j1 r1) j2 r2).ones.valueOf k =
          (on_job_result (on_job_result s j2 r2) j1 r1).ones.valueOf k) ∧
    (∀ (s2 : CollectorState) (j : CircuitSampleJob) (r : TrialResult)
       (k : PauliString),
      (on_job_result s2 j r).zeros.valueOf k =
        (if k = j.id then s2.zeros.valueOf k + histogramCount r 0
         else s2.zeros.valueOf k) ∧
      (on_job_result s2 j r).ones.valueOf k =
        (if k = j.id then s2.ones.valueOf k + histogramCount r 1
         else s2.ones.valueOf k)) := by
  refine ⟨fun k => ?_, fun k => ?_, fun s2 j r k =>
    ⟨addItem_valueOf s2.zeros j.id k (histogramCount r 0),
     addItem_valueOf s2.ones j.id k (histogramCount r 1)⟩⟩
  · simp only [on_job_result]
    rw [addItem_valueOf, addItem_valueOf, addItem_valueOf, addItem_valueOf]
    by_cases h1 : k = j1.id
    · have h2 : ¬k = j2.id := fun hc => h (h1 ▸ hc ▸ rfl)
      simp [h1, h2, h, Ne.symm h]
    · by_cases h2 : k = j2.id
      · simp [h1, h2, h, Ne.symm h]
      · simp [h1, h2]
  · simp only [on_job_result]
    rw [addItem_valueOf, addItem_valueOf, addItem_valueOf, addItem_valueOf]
    by_cases h1 : k = j1.id
    · have h2 : ¬k = j2.id := fun hc => h (h1 ▸ hc ▸ rfl)
      simp [h1, h2, h, Ne.symm h]
    · by_cases h2 : k = j2.id
      · simp [h1, h2, h, Ne.symm h]
      · simp [h1, h2]

/-- A job for the empty-observable key, used only to exercise distinct ids. -/
def jobE : CircuitSampleJob := { circuit := [], repetitions := 1, id := psEmpty }

/- Support lemmas for the batching and ordering claims. -/

theorem repsForTerm_nil (i : Int) : repsForTerm i [] = 0 := rfl

theorem repsForTerm_cons (i : Int) (e : Int × Int) (tr : List (Int × Int)) :
    repsForTerm i (e :: tr) =
      (if e.1 = i then e.2 else 0) + repsForTerm i tr := by
  by_cases h : e.1 = i <;> simp [repsForTerm, List.filter_cons, h]

theorem repsForTerm_append (i : Int) (l1 l2 : List (Int × Int)) :
    repsForTerm i (l1 ++ l2) = repsForTerm i l1 + repsForTerm i l2 := by
  simp [repsForTerm, List.filter_append]

theorem fdiv_bounds (t spt : Int) (hspt : 0 < spt) (_ht : 0 ≤ t) :
    spt * Int.fdiv t spt ≤ t ∧ t < spt * (Int.fdiv t spt + 1) := by
  rw [Int.fdiv_eq_ediv t (le_of_lt hspt)]
  have h1 := Int.ediv_add_emod t spt
  have h2 := Int.emod_nonneg t (by omega : spt ≠ 0)
  have h3 := Int.emod_lt_of_pos t hspt
  constructor
  · linarith
  · have h4 : spt * (t / spt + 1) = spt * (t / spt) + spt := by ring
    linarith

theorem fdiv_nonneg_of (t spt : Int) (hspt : 0 < spt) (ht : 0 ≤ t) :
    0 ≤ Int.fdiv t spt := by
  rw [Int.fdiv_eq_ediv t (le_of_lt hspt)]
  exact Int.ediv_nonneg ht (le_of_lt hspt)

theorem fdiv_mono (t t2 spt : Int) (hspt : 0 < spt) (h : t ≤ t2) :
    Int.fdiv t spt ≤ Int.fdiv t2 spt := by
  rw [Int.fdiv_eq_ediv t (le_of_lt hspt), Int.fdiv_eq_ediv t2 (le_of_lt hspt)]
  exact Int.ediv_le_ediv hspt h

theorem pyListGet_ok {α : Type} (l : List α) (i : Int) (h0 : 0 ≤ i)
    (hl : i < (l.length : Int)) :
    ∃ x, pyListGet l i = Except.ok x ∧ x ∈ l := by
  have hlt : i.toNat < l.length := by omega
  refine ⟨l.get ⟨i.toNat, hlt⟩, ?_, List.get_mem l i.toNat hlt⟩
  simp only [pyListGet, if_neg (not_lt.mpr h0)]
  rw [List.get?_eq_get hlt]

theorem next_job_none_of_exhausted (s : CollectorState)
    (h0 : s.samples_per_term ≠ 0)
    (hge : (s.terms.length : Int) ≤
      Int.fdiv s.total_samples_requested s.samples_per_term) :
    next_job s = Except.ok (none, s) := by
  simp [next_job, h0, hge]

/-- The term index next_job computes from the current state. -/
def curIndex (s : CollectorState) : Int :=
  Int.fdiv s.total_samples_requested s.samples_per_term

/-- The batch size next_job computes from the current state:
min(remaining-for-current-term, max_samples_per_job). -/
def batchAmount (s : CollectorState) : Int :=
  min (s.samples_per_term * (curIndex s + 1) - s.total_samples_requested)
    s.samples_per_job

/-- The state after next_job advances the request counter by one batch. -/
def advanceState (s : CollectorState) : CollectorState :=
  { s with total_samples_requested :=
      s.total_samples_requested + batchAmount s }

theorem next_job_emit_eq (s : CollectorState) (p : PauliString) (coef : Rat)
    (h0 : s.samples_per_term ≠ 0)
    (hlt : ¬((s.terms.length : Int) ≤ curIndex s))
    (hget : pyListGet s.terms (curIndex s) = Except.ok (p, coef))
    (hkeys : p.qubit_pauli_map ≠ []) :
    next_job s = Except.ok
      (some
        { circuit := s.circuit ++
            [Moment.zBasisOps p,
             Moment.measurement (sortedKeys p.keys) MeasKey.out]
          repetitions := batchAmount s
          id := p },
       advanceState s) := by
  simp [next_job, curIndex, batchAmount, advanceState, h0, hlt, hget,
    circuit_plus_pauli_string_measurements, hkeys, bind, Except.bind] at *
  simp [next_job, curIndex, h0, hlt, hget, bind, Except.bind,
    circuit_plus_pauli_string_measurements, hkeys]

theorem next_job_ok_none_inv (s s2 : CollectorState)
    (h : next_job s = Except.ok (none, s2)) : s2 = s := by
  by_cases h0 : s.samples_per_term = 0
  · simp [next_job, h0] at h
  · by_cases hge : (s.terms.length : Int) ≤
        Int.fdiv s.total_samples_requested s.samples_per_term
    · rw [next_job_none_of_exhausted s h0 hge] at h
      simp only [Except.ok.injEq, Prod.mk.injEq] at h
      exact h.2.symm
    · exfalso
      cases hget : pyListGet s.terms
          (Int.fdiv s.total_samples_requested s.samples_per_term) with
      | error e => simp [next_job, h0, hge, hget, bind, Except.bind] at h
      | ok term =>
        cases hc : circuit_plus_pauli_string_measurements s.circuit
            term.1 with
        | error e =>
          simp [next_job, h0, hge, hget, hc, bind, Except.bind] at h
        | ok c =>
          simp [next_job, h0, hge, hget, hc, bind, Except.bind] at h

theorem next_job_ok_some_inv (s : CollectorState) (j : CircuitSampleJob)
    (s2 : CollectorState) (h : next_job s = Except.ok (some j, s2)) :
    j.repetitions = min (s.samples_per_term *
        (Int.fdiv s.total_samples_requested s.samples_per_term + 1) -
        s.total_samples_requested) s.samples_per_job ∧
    s2 = { s with total_samples_requested :=
        s.total_samples_requested + j.repetitions } := by
  by_cases h0 : s.samples_per_term = 0
  · simp [next_job, h0] at h
  · by_cases hge : (s.terms.length : Int) ≤
        Int.fdiv s.total_samples_requested s.samples_per_term
    · rw [next_job_none_of_exhausted s h0 hge] at h
      simp at h
    · cases hget : pyListGet s.terms
          (Int.fdiv s.total_samples_requested s.samples_per_term) with
      | error e => simp [next_job, h0, hge, hget, bind, Except.bind] at h
      | ok term =>
        cases hc : circuit_plus_pauli_string_measurements s.circuit
            term.1 with
        | error e =>
          simp [next_job, h0, hge, hget, hc, bind, Except.bind] at h
        | ok c =>
          simp only [next_job, h0, hge, hget, hc, bind, Except.bind,
            if_neg, if_false, ite_false, Except.ok.injEq, Prod.mk.injEq,
            Option.some.injEq] at h
          obtain ⟨hj, hs⟩ := h
          constructor
          · rw [← hj]
          · rw [← hs, ← hj]

theorem runCollector_zero (s : CollectorState) : runCollector 0 s = ([], s) :=
  rfl

theorem runCollector_terminal (fuel : Nat) (s : CollectorState)
    (h0 : s.samples_per_term ≠ 0)
    (hge : (s.terms.length : Int) ≤
      Int.fdiv s.total_samples_requested s.samples_per_term) :
    runCollector (fuel + 1) s = ([], s) := by
  simp [runCollector, next_job_none_of_exhausted s h0 hge]

theorem runCollector_emit (fuel : Nat) (s : CollectorState)
    (hspt : 0 < s.samples_per_term) (ht : 0 ≤ s.total_samples_requested)
    (hkeys : ∀ x ∈ s.terms, x.1.qubit_pauli_map ≠ [])
    (hlt : ¬((s.terms.length : Int) ≤ curIndex s)) :
    runCollector (fuel + 1) s =
      ((curIndex s, batchAmount s) ::
        (runCollector fuel (advanceState s)).1,
       (runCollector fuel (advanceState s)).2) := by
  obtain ⟨x, hget, hmem⟩ := pyListGet_ok s.terms (curIndex s)
    (fdiv_nonneg_of s.total_samples_requested s.samples_per_term hspt ht)
    (not_le.mp hlt)
  have hemit := next_job_emit_eq s x.1 x.2 (ne_of_gt hspt) hlt hget
    (hkeys x hmem)
  simp [runCollector, hemit, curIndex]

/-- The arithmetic of one batching step for the current term. -/
theorem quota_step_same (P t mspj spt : Int) (h1 : 0 < spt) (h2 : 0 < mspj)
    (hb2 : t < P) (hb1 : P ≤ t + spt) :
    min (P - t) mspj + max 0 (min (P - (t + min (P - t) mspj)) spt) =
      max 0 (min (P - t) spt) := by
  omega

/-- The arithmetic of one batching step for a term above the current one. -/
theorem quota_step_above (A C t mspj spt : Int) (h1 : 0 < spt)
    (_h2 : 0 < mspj) (h3 : t < A) (h4 : A + spt ≤ C) :
    max 0 (min (C - (t + min (A - t) mspj)) spt) =
      max 0 (min (C - t) spt) := by
  omega

/-- The arithmetic of one batching step for a term below the current one. -/
theorem quota_step_below (C t amt spt : Int) (h1 : 0 < spt) (hC : C ≤ t)
    (hamt : 0 ≤ amt) :
    max 0 (min (C - (t + amt)) spt) = max 0 (min (C - t) spt) := by
  omega

theorem runCollector_emit_fst (fuel : Nat) (s : CollectorState)
    (hspt : 0 < s.samples_per_term) (ht : 0 ≤ s.total_samples_requested)
    (hkeys : ∀ x ∈ s.terms, x.1.qubit_pauli_map ≠ [])
    (hlt : ¬((s.terms.length : Int) ≤ curIndex s)) :
    (runCollector (fuel + 1) s).1 =
      (curIndex s, batchAmount s) ::
        (runCollector fuel (advanceState s)).1 := by
  rw [runCollector_emit fuel s hspt ht hkeys hlt]

theorem runCollector_emit_snd (fuel : Nat) (s : CollectorState)
    (hspt : 0 < s.samples_per_term) (ht : 0 ≤ s.total_samples_requested)
    (hkeys : ∀ x ∈ s.terms, x.1.qubit_pauli_map ≠ [])
    (hlt : ¬((s.terms.length : Int) ≤ curIndex s)) :
    (runCollector (fuel + 1) s).2 =
      (runCollector fuel (advanceState s)).2 := by
  rw [runCollector_emit fuel s hspt ht hkeys hlt]

/-- The per-term quota invariant: starting from any reachable request count,
the driving loop requests for term i exactly the still-open part of that
term's quota window, clamped between 0 and samples_per_term. -/
theorem runCollector_quota (fuel : Nat) :
    ∀ (s : CollectorState),
    0 < s.samples_per_term → 0 < s.samples_per_job →
    0 ≤ s.total_samples_requested →
    (∀ x ∈ s.terms, x.1.qubit_pauli_map ≠ []) →
    s.samples_per_term * (s.terms.length : Int) -
      s.total_samples_requested ≤ (fuel : Int) →
    ∀ i : Nat, i < s.terms.length →
    repsForTerm (i : Int) (runCollector fuel s).1 =
      max 0 (min (s.samples_per_term * ((i : Int) + 1) -
        s.total_samples_requested) s.samples_per_term) := by
  induction fuel with
  | zero =>
    intro s hspt hmspj ht hkeys hfuel i hi
    push_cast at hfuel
    have hN : ((i : Int) + 1) ≤ (s.terms.length : Int) := by exact_mod_cast hi
    have hmul : s.samples_per_term * ((i : Int) + 1) ≤
        s.samples_per_term * (s.terms.length : Int) :=
      mul_le_mul_of_nonneg_left hN (le_of_lt hspt)
    have h1 : min (s.samples_per_term * ((i : Int) + 1) -
        s.total_samples_requested) s.samples_per_term ≤ 0 :=
      le_trans (min_le_left _ _) (by linarith)
    rw [runCollector_zero]
    dsimp only
    rw [repsForTerm_nil]
    exact (max_eq_left h1).symm
  | succ fuel ih =>
    intro s hspt hmspj ht hkeys hfuel i hi
    push_cast at hfuel
    have hq := fdiv_bounds s.total_samples_requested s.samples_per_term
      hspt ht
    have hb1 : s.samples_per_term * curIndex s ≤
        s.total_samples_requested := hq.1
    have hb2 : s.total_samples_requested <
        s.samples_per_term * (curIndex s + 1) := hq.2
    by_cases hge : (s.terms.length : Int) ≤ curIndex s
    · have hmulN : s.samples_per_term * (s.terms.length : Int) ≤
          s.samples_per_term * curIndex s :=
        mul_le_mul_of_nonneg_left hge (le_of_lt hspt)
      have hN : ((i : Int) + 1) ≤ (s.terms.length : Int) := by
        exact_mod_cast hi
      have hmul : s.samples_per_term * ((i : Int) + 1) ≤
          s.samples_per_term * (s.terms.length : Int) :=
        mul_le_mul_of_nonneg_left hN (le_of_lt hspt)
      have h1 : min (s.samples_per_term * ((i : Int) + 1) -
          s.total_samples_requested) s.samples_per_term ≤ 0 :=
        le_trans (min_le_left _ _) (by linarith)
      rw [runCollector_terminal fuel s (ne_of_gt hspt) hge]
      dsimp only
      rw [repsForTerm_nil]
      exact (max_eq_left h1).symm
    · have hamt1 : 1 ≤ batchAmount s := by
        unfold batchAmount
        exact le_min (by linarith) (by linarith)
      have hia : i < (advanceState s).terms.length := hi
      have ihs := ih (advanceState s) hspt hmspj
        (by
          show 0 ≤ s.total_samples_requested + batchAmount s
          linarith)
        hkeys
        (by
          show (advanceState s).samples_per_term *
            ((advanceState s).terms.length : Int) -
            (advanceState s).total_samples_requested ≤ (fuel : Int)
          show s.samples_per_term * ((s.terms.length : Int)) -
            (s.total_samples_requested + batchAmount s) ≤ (fuel : Int)
          linarith)
        i hia
      rw [runCollector_emit_fst fuel s hspt ht hkeys hge, repsForTerm_cons]
      dsimp only
      rw [ihs]
      have hadv1 : (advanceState s).samples_per_term = s.samples_per_term :=
        rfl
      have hadv2 : (advanceState s).total_samples_requested =
          s.total_samples_requested + batchAmount s := rfl
      rw [hadv1, hadv2]
      by_cases hqi : curIndex s = (i : Int)
      · rw [if_pos hqi]
        have hb2i : s.total_samples_requested <
            s.samples_per_term * ((i : Int) + 1) := by rw [← hqi]; exact hb2
        have hb1i : s.samples_per_term * ((i : Int) + 1) ≤
            s.total_samples_requested + s.samples_per_term := by
          have hr : s.samples_per_term * ((i : Int) + 1) =
              s.samples_per_term * (i : Int) + s.samples_per_term := by ring
          have hb1i2 : s.samples_per_term * (i : Int) ≤
              s.total_samples_requested := by rw [← hqi]; exact hb1
          linarith
        have hba : batchAmount s =
            min (s.samples_per_term * ((i : Int) + 1) -
              s.total_samples_requested) s.samples_per_job := by
          unfold batchAmount
          rw [hqi]
        rw [hba]
        exact quota_step_same (s.samples_per_term * ((i : Int) + 1))
          s.total_samples_requested s.samples_per_job s.samples_per_term
          hspt hmspj hb2i hb1i
      · rw [if_neg hqi, zero_add]
        rcases lt_or_gt_of_ne hqi with hlt2 | hgt2
        · have hle : curIndex s + 1 + 1 ≤ (i : Int) + 1 := by omega
          have h4 : s.samples_per_term * (curIndex s + 1) +
              s.samples_per_term ≤
              s.samples_per_term * ((i : Int) + 1) := by
            have hr : s.samples_per_term * (curIndex s + 1) +
                s.samples_per_term =
                s.samples_per_term * (curIndex s + 1 + 1) := by ring
            rw [hr]
            exact mul_le_mul_of_nonneg_left hle (le_of_lt hspt)
          have hba : batchAmount s =
              min (s.samples_per_term * (curIndex s + 1) -
                s.total_samples_requested) s.samples_per_job := rfl
          rw [hba]
          exact quota_step_above
            (s.samples_per_term * (curIndex s + 1))
            (s.samples_per_term * ((i : Int) + 1))
            s.total_samples_requested s.samples_per_job s.samples_per_term
            hspt hmspj hb2 h4
        · have hle : (i : Int) + 1 ≤ curIndex s := by omega
          have hC : s.samples_per_term * ((i : Int) + 1) ≤
              s.total_samples_requested := by
            have h5 : s.samples_per_term * ((i : Int) + 1) ≤
                s.samples_per_term * curIndex s :=
              mul_le_mul_of_nonneg_left hle (le_of_lt hspt)
            linarith
          exact quota_step_below (s.samples_per_term * ((i : Int) + 1))
            s.total_samples_requested (batchAmount s) s.samples_per_term
            hspt hC (by linarith)

/-- Tags of emitted jobs are nondecreasing, bounded below by the current
term index and above by the term count. -/
theorem runCollector_tags (fuel : Nat) :
    ∀ (s : CollectorState),
    0 < s.samples_per_term → 0 < s.samples_per_job →
    0 ≤ s.total_samples_requested →
    (∀ x ∈ s.terms, x.1.qubit_pauli_map ≠ []) →
    List.Chain' (· ≤ ·) ((runCollector fuel s).1.map Prod.fst) ∧
    ∀ x ∈ (runCollector fuel s).1,
      curIndex s ≤ x.1 ∧ x.1 < (s.terms.length : Int) := by
  induction fuel with
  | zero =>
    intro s _ _ _ _
    rw [runCollector_zero]
    dsimp only
    simp
  | succ fuel ih =>
    intro s hspt hmspj ht hkeys
    by_cases hge : (s.terms.length : Int) ≤ curIndex s
    · rw [runCollector_terminal fuel s (ne_of_gt hspt) hge]
      dsimp only
      simp
    · have hq := fdiv_bounds s.total_samples_requested s.samples_per_term
        hspt ht
      have hb2c : s.total_samples_requested <
          s.samples_per_term * (curIndex s + 1) := hq.2
      have hamt1 : 1 ≤ batchAmount s := by
        unfold batchAmount
        exact le_min (by linarith) (by linarith)
      have hta : 0 ≤ (advanceState s).total_samples_requested := by
        show 0 ≤ s.total_samples_requested + batchAmount s
        linarith
      have ihs := ih (advanceState s) hspt hmspj hta hkeys
      have hmono : curIndex s ≤ curIndex (advanceState s) := by
        show Int.fdiv s.total_samples_requested s.samples_per_term ≤
          Int.fdiv (s.total_samples_requested + batchAmount s)
            s.samples_per_term
        exact fdiv_mono _ _ _ hspt (by linarith)
      rw [runCollector_emit_fst fuel s hspt ht hkeys hge]
      constructor
      · rw [List.map_cons]
        refine List.chain'_cons'.mpr ⟨fun b hb => ?_, ihs.1⟩
        have hbmem : b ∈ (runCollector fuel (advanceState s)).1.map
            Prod.fst := List.mem_of_mem_head? hb
        obtain ⟨x, hxmem, hxb⟩ := List.mem_map.mp hbmem
        have hx1 := (ihs.2 x hxmem).1
        calc (curIndex s, batchAmount s).1 = curIndex s := rfl
          _ ≤ curIndex (advanceState s) := hmono
          _ ≤ x.1 := hx1
          _ = b := hxb
      · intro x hx
        rcases List.mem_cons.mp hx with hx1 | hx2
        · rw [hx1]
          exact ⟨le_refl _, not_le.mp hge⟩
        · have h2 := ihs.2 x hx2
          exact ⟨le_trans hmono h2.1, h2.2⟩

/-- Any suffix of the job stream starting at an emitted job is itself the
job stream of a reachable collector state with the same parameters. -/
theorem runCollector_split (fuel : Nat) :
    ∀ (s : CollectorState) (pre post : List (Int × Int)) (e : Int × Int),
    0 < s.samples_per_term → 0 < s.samples_per_job →
    0 ≤ s.total_samples_requested →
    (∀ x ∈ s.terms, x.1.qubit_pauli_map ≠ []) →
    s.samples_per_term * (s.terms.length : Int) -
      s.total_samples_requested ≤ (fuel : Int) →
    (runCollector fuel s).1 = pre ++ e :: post →
    ∃ (fuel2 : Nat) (s2 : CollectorState),
      s2.samples_per_term = s.samples_per_term ∧
      s2.samples_per_job = s.samples_per_job ∧
      s2.terms = s.terms ∧
      0 ≤ s2.total_samples_requested ∧
      s2.samples_per_term * (s2.terms.length : Int) -
        s2.total_samples_requested ≤ (fuel2 : Int) ∧
      (runCollector fuel2 s2).1 = e :: post := by
  induction fuel with
  | zero =>
    intro s pre post e _ _ _ _ _ hsplit
    rw [runCollector_zero] at hsplit
    dsimp only at hsplit
    exact absurd hsplit.symm (List.append_ne_nil_of_right_ne_nil pre
      (List.cons_ne_nil e post))
  | succ fuel ih =>
    intro s pre post e hspt hmspj ht hkeys hfuel hsplit
    push_cast at hfuel
    by_cases hge : (s.terms.length : Int) ≤ curIndex s
    · rw [runCollector_terminal fuel s (ne_of_gt hspt) hge] at hsplit
      dsimp only at hsplit
      exact absurd hsplit.symm (List.append_ne_nil_of_right_ne_nil pre
        (List.cons_ne_nil e post))
    · rw [runCollector_emit_fst fuel s hspt ht hkeys hge] at hsplit
      have hq := fdiv_bounds s.total_samples_requested s.samples_per_term
        hspt ht
      have hb2c : s.total_samples_requested <
          s.samples_per_term * (curIndex s + 1) := hq.2
      have hamt1 : 1 ≤ batchAmount s := by
        unfold batchAmount
        exact le_min (by linarith) (by linarith)
      cases pre with
      | nil =>
        simp only [List.nil_append] at hsplit
        refine ⟨fuel + 1, s, rfl, rfl, rfl, ht, by push_cast; linarith, ?_⟩
        rw [runCollector_emit_fst fuel s hspt ht hkeys hge]
        exact hsplit
      | cons x pre2 =>
        simp only [List.cons_append] at hsplit
        injection hsplit with hx htail
        exact ih (advanceState s) pre2 post e hspt hmspj
          (by
            show 0 ≤ s.total_samples_requested + batchAmount s
            linarith)
          hkeys
          (by
            show s.samples_per_term * ((s.terms.length : Int)) -
              (s.total_samples_requested + batchAmount s) ≤ (fuel : Int)
            linarith)
          htail

/-- The head of a nonempty job stream carries the current term index, which
is then within the term list. -/
theorem runCollector_head_tag (fuel : Nat) (s : CollectorState)
    (e : Int × Int) (rest : List (Int × Int))
    (h : (runCollector fuel s).1 = e :: rest) :
    e.1 = curIndex s ∧ curIndex s < (s.terms.length : Int) := by
  cases fuel with
  | zero =>
    rw [runCollector_zero] at h
    exact absurd h (by simp)
  | succ fuel =>
    cases hnj : next_job s with
    | error err => simp [runCollector, hnj] at h
    | ok pr =>
      obtain ⟨oj, s2⟩ := pr
      cases oj with
      | none => simp [runCollector, hnj] at h
      | some j =>
        have h0 : s.samples_per_term ≠ 0 := by
          intro hc
          simp [next_job, hc] at hnj
        have hlt : ¬((s.terms.length : Int) ≤ curIndex s) := by
          intro hge
          rw [next_job_none_of_exhausted s h0 hge] at hnj
          simp at hnj
        simp only [runCollector, hnj] at h
        have he : e = (Int.fdiv s.total_samples_requested
            s.samples_per_term, j.repetitions) := by
          have := (List.cons.inj h.symm).1
          exact this
        constructor
        · rw [he]
          rfl
        · exact not_le.mp hlt

/-- The collector produced by construction with samples_per_term 2500,
max_samples_per_job 1000 and the single term psZ at weight 2. -/
def sBatch : CollectorState :=
  { circuit := []
    samples_per_job := 1000
    terms := [({ qubit_pauli_map := [(0, Pauli.Z)], coefficient := 1 }, 2 * 1)]
    zeros := { entries := [] }
    ones := { entries := [] }
    samples_per_term := 2500
    total_samples_requested := 0 }

/-- The single-qubit Y observable on line 0. -/
def psY : PauliString := { qubit_pauli_map := [(0, Pauli.Y)], coefficient := 1 }

/-- A two-term collector with samples_per_term 100, max_samples_per_job
1000. -/
def sOrder : CollectorState :=
  { circuit := []
    samples_per_job := 1000
    terms := [(psZ, 1), (psY, 1)]
    zeros := { entries := [] }
    ones := { entries := [] }
    samples_per_term := 100
    total_samples_requested := 0 }

/-- The sBatch collector after its full quota has been requested. -/
def sDone : CollectorState :=
  { sBatch with total_samples_requested := 2500 }

/-- C4: with positive samples_per_term and max_samples_per_job (and
well-formed observables), the job stream requests exactly samples_per_term
total repetitions per term; every emitted Job's repetition count is
min(remaining-for-current-term, max_samples_per_job) and advances the
request counter by itself; concretely, with samples_per_term 2500 and
max_samples_per_job 1000 on one term the stream is 1000, 1000, 500, then
next_job returns None, with total_samples_requested ending at 2500. -/
theorem collector_batching_quota :
    (∀ (fuel : Nat) (s : CollectorState),
      0 < s.samples_per_term → 0 < s.samples_per_job →
      s.total_samples_requested = 0 →
      (∀ x ∈ s.terms, x.1.qubit_pauli_map ≠ []) →
      s.samples_per_term * (s.terms.length : Int) ≤ (fuel : Int) →
      ∀ i : Nat, i < s.terms.length →
      repsForTerm (i : Int) (runCollector fuel s).1 =
        s.samples_per_term) ∧
    (∀ (s : CollectorState) (j : CircuitSampleJob) (s2 : CollectorState),
      next_job s = Except.ok (some j, s2) →
      j.repetitions = min (s.samples_per_term * (curIndex s + 1) -
        s.total_samples_requested) s.samples_per_job ∧
      s2.total_samples_requested =
        s.total_samples_requested + j.repetitions) ∧
    (pauliStringSampleCollector_init [] 2500 [(psZ, 2)] 1000 =
        Except.ok sBatch ∧
      (runCollector 4 sBatch).1 = [(0, 1000), (0, 1000), (0, 500)] ∧
      (runCollector 4 sBatch).2.total_samples_requested = 2500 ∧
      next_job (runCollector 4 sBatch).2 =
        Except.ok (none, (runCollector 4 sBatch).2)) := by
  refine ⟨?_, ?_, rfl, by decide, by decide, rfl⟩
  · intro fuel s hspt hmspj ht0 hkeys hfuel i hi
    have hq := runCollector_quota fuel s hspt hmspj (by omega) hkeys
      (by rw [ht0, sub_zero]; exact hfuel) i hi
    rw [hq, ht0, sub_zero]
    have h6 : s.samples_per_term * 1 ≤
        s.samples_per_term * ((i : Int) + 1) :=
      mul_le_mul_of_nonneg_left (by omega) (le_of_lt hspt)
    have h5 : s.samples_per_term ≤ s.samples_per_term * ((i : Int) + 1) := by
      linarith
    rw [min_eq_right h5, max_eq_right (le_of_lt hspt)]
  · intro s j s2 h
    obtain ⟨h1, h2⟩ := next_job_ok_some_inv s j s2 h
    exact ⟨h1, by rw [h2]⟩

theorem collector_batching_quota_witness :
    repsForTerm ((0 : Nat) : Int) (runCollector 2500 sBatch).1 =
      sBatch.samples_per_term :=
  collector_batching_quota.1 2500 sBatch (by decide) (by decide) rfl
    (by decide) (by decide) 0 (by decide)

/-- C5: the job stream visits terms in nondecreasing index order; a job for
a later term is only emitted once every earlier term's full samples_per_term
quota has been requested; and the Exhausted state is absorbing: once
next_job answers None it leaves the state unchanged and every subsequent
call answers None again. -/
theorem collector_term_ordering :
    (∀ (fuel : Nat) (s : CollectorState),
      0 < s.samples_per_term → 0 < s.samples_per_job →
      0 ≤ s.total_samples_requested →
      (∀ x ∈ s.terms, x.1.qubit_pauli_map ≠ []) →
      List.Chain' (· ≤ ·) ((runCollector fuel s).1.map Prod.fst)) ∧
    (∀ (fuel : Nat) (s : CollectorState) (pre post : List (Int × Int))
       (e : Int × Int),
      0 < s.samples_per_term → 0 < s.samples_per_job →
      s.total_samples_requested = 0 →
      (∀ x ∈ s.terms, x.1.qubit_pauli_map ≠ []) →
      s.samples_per_term * (s.terms.length : Int) ≤ (fuel : Int) →
      (runCollector fuel s).1 = pre ++ e :: post →
      ∀ i : Int, 0 ≤ i → i < e.1 →
      repsForTerm i pre = s.samples_per_term) ∧
    (∀ s s2 : CollectorState, next_job s = Except.ok (none, s2) →
      s2 = s ∧ next_job s2 = Except.ok (none, s2)) := by
  refine ⟨?_, ?_, ?_⟩
  · exact fun fuel s h1 h2 h3 h4 => (runCollector_tags fuel s h1 h2 h3 h4).1
  · intro fuel s pre post e hspt hmspj ht0 hkeys hfuel hsplit i hi0 hie
    obtain ⟨fuel2, s2, hspt2, hmspj2, hterms2, htot2, hfuel2, htrace2⟩ :=
      runCollector_split fuel s pre post e hspt hmspj (by omega) hkeys
        (by rw [ht0, sub_zero]; exact hfuel) hsplit
    obtain ⟨hhead, hlt2⟩ := runCollector_head_tag fuel2 s2 e post htrace2
    have hspt2p : 0 < s2.samples_per_term := by rw [hspt2]; exact hspt
    have hmspj2p : 0 < s2.samples_per_job := by rw [hmspj2]; exact hmspj
    have hkeys2 : ∀ x ∈ s2.terms, x.1.qubit_pauli_map ≠ [] := by
      rw [hterms2]; exact hkeys
    have hq2 := fdiv_bounds s2.total_samples_requested s2.samples_per_term
      hspt2p htot2
    have hieN : i < (s2.terms.length : Int) := by
      calc i < e.1 := hie
        _ = curIndex s2 := hhead
        _ < (s2.terms.length : Int) := hlt2
    have hiNat : i.toNat < s2.terms.length := by omega
    have hsuffix := runCollector_quota fuel2 s2 hspt2p hmspj2p htot2 hkeys2
      hfuel2 i.toNat hiNat
    rw [htrace2] at hsuffix
    have hicast : ((i.toNat : Nat) : Int) = i := Int.toNat_of_nonneg hi0
    rw [hicast] at hsuffix
    have hici : i < curIndex s2 := hhead ▸ hie
    have hile : i + 1 ≤ curIndex s2 := by omega
    have hm1 : s2.samples_per_term * (i + 1) ≤
        s2.samples_per_term * curIndex s2 :=
      mul_le_mul_of_nonneg_left hile (le_of_lt hspt2p)
    have hm2 : s2.samples_per_term * curIndex s2 ≤
        s2.total_samples_requested := hq2.1
    have hzero : repsForTerm i (e :: post) = 0 := by
      rw [hsuffix]
      exact max_eq_left (le_trans (min_le_left _ _) (by linarith))
    have hlen : s2.terms.length = s.terms.length := by rw [hterms2]
    have hiN : i.toNat < s.terms.length := by omega
    have hfull := runCollector_quota fuel s hspt hmspj (by omega) hkeys
      (by rw [ht0, sub_zero]; exact hfuel) i.toNat hiN
    rw [hsplit, hicast, ht0, sub_zero] at hfull
    have h6 : s.samples_per_term * 1 ≤ s.samples_per_term * (i + 1) :=
      mul_le_mul_of_nonneg_left (by omega) (le_of_lt hspt)
    have h5 : s.samples_per_term ≤ s.samples_per_term * (i + 1) := by
      linarith
    rw [min_eq_right h5, max_eq_right (le_of_lt hspt),
      repsForTerm_append] at hfull
    omega
  · intro s s2 h
    have he := next_job_ok_none_inv s s2 h
    subst he
    exact ⟨rfl, h⟩

theorem collector_term_ordering_witness :
    List.Chain' (· ≤ ·) ((runCollector 4 sBatch).1.map Prod.fst) ∧
    repsForTerm 0 [(0, 100)] = sOrder.samples_per_term ∧
    (sDone = sDone ∧ next_job sDone = Except.ok (none, sDone)) :=
  ⟨collector_term_ordering.1 4 sBatch (by decide) (by decide) (by decide)
      (by decide),
   collector_term_ordering.2.1 200 sOrder [(0, 100)] [] (1, 100) (by decide)
      (by decide) rfl (by decide) (by decide) (by decide) 0 (by decide)
      (by decide),
   collector_term_ordering.2.2 sDone sDone rfl⟩

/-- The collector produced by construction with samples_per_term 100 on the
single malformed (empty-observable) term. -/
def sEmptyTerm : CollectorState :=
  { circuit := []
    samples_per_job := 1000
    terms := [({ qubit_pauli_map := [], coefficient := 1 }, 1 * 1)]
    zeros := { entries := [] }
    ones := { entries := [] }
    samples_per_term := 100
    total_samples_requested := 0 }

/-- The collector produced by construction with the malformed
samples_per_term 0 on the single term psZ. -/
def sZeroSpt : CollectorState :=
  { circuit := []
    samples_per_job := 1000
    terms := [({ qubit_pauli_map := [(0, Pauli.Z)], coefficient := 1 }, 1 * 1)]
    zeros := { entries := [] }
    ones := { entries := [] }
    samples_per_term := 0
    total_samples_requested := 0 }

/-- C7 counterexample: construction does not fail fast on malformed input.
Constructing with an empty product-observable term succeeds and the
violation only surfaces as the assertion failure when next_job builds that
term's measurement circuit; constructing with samples_per_term 0 succeeds
and only surfaces as a division error at the first next_job call. -/
theorem collector_construction_does_not_fail_counterexample :
    (pauliStringSampleCollector_init [] 100 [(psEmpty, 1)] 1000 =
        Except.ok sEmptyTerm ∧
      next_job sEmptyTerm = Except.error CollectorError.assertionFailed) ∧
    (pauliStringSampleCollector_init [] 0 [(psZ, 1)] 1000 =
        Except.ok sZeroSpt ∧
      next_job sZeroSpt = Except.error CollectorError.zeroDivisionFailed) :=
  ⟨⟨rfl, rfl⟩, ⟨rfl, rfl⟩⟩

/-- C7 (amended): construction never raises, for malformed input included;
the violations surface later, inside next_job: a zero samples_per_term
raises the division error at every next_job call, and an empty
product-observable raises the assertion failure when next_job reaches that
term and builds its measurement circuit. -/
theorem collector_malformed_construction_surfaces_in_next_job :
    (∀ (c : Circuit) (spt : Int) (terms : List (PauliString × Rat))
       (mspj : Int),
      ∃ s, pauliStringSampleCollector_init c spt terms mspj = Except.ok s) ∧
    (∀ s : CollectorState, s.samples_per_term = 0 →
      next_job s = Except.error CollectorError.zeroDivisionFailed) ∧
    (∀ (s : CollectorState) (p : PauliString) (coef : Rat),
      s.samples_per_term ≠ 0 →
      ¬((s.terms.length : Int) ≤
          Int.fdiv s.total_samples_requested s.samples_per_term) →
      pyListGet s.terms
          (Int.fdiv s.total_samples_requested s.samples_per_term) =
        Except.ok (p, coef) →
      p.qubit_pauli_map = [] →
      next_job s = Except.error CollectorError.assertionFailed) := by
  refine ⟨fun c spt terms mspj => ⟨_, rfl⟩, fun s h => ?_, ?_⟩
  · simp [next_job, h]
  · intro s p coef h0 hlt hget hempty
    simp [next_job, h0, hlt, hget,
      circuit_plus_pauli_string_measurements, hempty]
    simp [bind, Except.bind, hempty]

theorem collector_malformed_surfaces_witness :
    (∃ s, pauliStringSampleCollector_init [] 100 [(psEmpty, 1)] 1000 =
      Except.ok s) ∧
    next_job sEmptyTerm = Except.error CollectorError.assertionFailed ∧
    next_job sZeroSpt = Except.error CollectorError.zeroDivisionFailed :=
  ⟨collector_malformed_construction_surfaces_in_next_job.1
      [] 100 [(psEmpty, 1)] 1000,
   collector_malformed_construction_surfaces_in_next_job.2.2 sEmptyTerm
      { qubit_pauli_map := [], coefficient := 1 } (1 * 1)
      (by decide) (by decide) rfl rfl,
   collector_malformed_construction_surfaces_in_next_job.2.1 sZeroSpt rfl⟩

theorem on_job_result_commutes_witness :
    (∀ k, (on_job_result (on_job_result sOneTerm jobZ [[0]]) jobE [[1]]).zeros.valueOf k =
          (on_job_result (on_job_result sOneTerm jobE [[1]]) jobZ [[0]]).zeros.valueOf k) ∧
    (∀ k, (on_job_result (on_job_result sOneTerm jobZ [[0]]) jobE [[1]]).ones.valueOf k =
          (on_job_result (on_job_result sOneTerm jobE [[1]]) jobZ [[0]]).ones.valueOf k) ∧
    (∀ (s2 : CollectorState) (j : CircuitSampleJob) (r : TrialResult)
       (k : PauliString),
      (on_job_result s2 j r).zeros.valueOf k =
        (if k = j.id then s2.zeros.valueOf k + histogramCount r 0
         else s2.zeros.valueOf k) ∧
      (on_job_result s2 j r).ones.valueOf k =
        (if k = j.id then s2.ones.valueOf k + histogramCount r 1
         else s2.ones.valueOf k)) :=
  on_job_result_commutes sOneTerm jobZ jobE [[0]] [[1]] (by decide)
